import Mathlib

/-!
Verification of the scaffolder in `src/estructura.py`.

The script iterates a hardcoded table mapping relative directory paths to
lists of file names; for each entry it calls `os.makedirs(join(base_dir,
folder), exist_ok=True)` and then opens each `join(folder, name)` with mode
"w", writing the empty string.

The filesystem is modelled as a partial map from resolved paths (lists of
components) to nodes (directories, or files with their content).  Fallible
filesystem operations return `Except FS FS`: `.ok` with the new state, or
`.error` with the state at the moment the operation raised, so that partial
effects of a failed run stay observable.
-/

namespace Estructura

/-- A node in the modelled filesystem tree: a directory, or a regular file
with its content. -/
inductive Node where
  | dir : Node
  | file : String → Node
deriving DecidableEq

/-- A path, as the list of its components after resolution of the
slash-separated string. -/
abbrev Path := List String

/-- A filesystem state: a partial map from paths to nodes. -/
def FS : Type := Path → Option Node

/-- Point update of a filesystem state. -/
def FS.update (fs : FS) (p : Path) (n : Node) : FS :=
  fun q => if q = p then some n else fs q

/-- Whether a path currently denotes a directory. -/
def FS.isDir (fs : FS) (q : Path) : Bool :=
  match fs q with
  | some Node.dir => true
  | _ => false

/-- Split a character list at every slash. -/
def splitSlash : List Char → List (List Char)
  | [] => [[]]
  | c :: cs =>
    if c = '/' then [] :: splitSlash cs
    else
      match splitSlash cs with
      | [] => [[c]]
      | seg :: rest => (c :: seg) :: rest

/-- The components of a slash-separated path string, with empty and `.`
components resolved away, as the operating system's path resolution does.
`os.path.join` of two such strings resolves to the appended component
lists (no absolute paths occur in the program). -/
def pathSegs (s : String) : Path :=
  ((splitSlash s.data).map (fun cs => String.mk cs)).filter
    (fun seg => seg ≠ "." && seg ≠ "")

/-- The filesystem state carried by either outcome of an operation. -/
def resState : Except FS FS → FS
  | .ok fs => fs
  | .error fs => fs

/-- The walk of `os.makedirs` over the components of the target path, `done`
being the already-resolved part: a missing component is created as a
directory, an existing directory is kept (`exist_ok=True`), and an existing
file in the way raises.  `.error` carries the state reached so far. -/
def makedirsAux (fs : FS) (done : Path) : List String → Except FS FS
  | [] => .ok fs
  | s :: rest =>
    match fs (done ++ [s]) with
    | some (Node.file _) => .error fs
    | some Node.dir => makedirsAux fs (done ++ [s]) rest
    | none => makedirsAux (FS.update fs (done ++ [s]) Node.dir) (done ++ [s]) rest

/-- Embedding of os.makedirs(path, exist_ok=True) on the modelled
filesystem. -/
def makedirs (fs : FS) (p : Path) : Except FS FS :=
  makedirsAux fs [] p

/-- Every strict nonempty ancestor of the path is currently a directory:
the condition for the kernel to resolve the parent of the path. -/
def properParentsOk (fs : FS) (p : Path) : Bool :=
  (List.range (p.length - 1)).all (fun n => FS.isDir fs (p.take (n + 1)))

/-- Embedding of open(path, "w") followed by writing the empty string:
raises when the path is
empty, is an existing directory, or its parent cannot be resolved;
otherwise it creates the file, or truncates the existing one, to empty
content.  Failure leaves the state unchanged. -/
def openWrite (fs : FS) (p : Path) : Except FS FS :=
  if p = [] then .error fs
  else if FS.isDir fs p then .error fs
  else if properParentsOk fs p then .ok (FS.update fs p (Node.file ""))
  else .error fs

/-- The inner loop of estructura.py: one empty file per listed name,
inside directory `d`. -/
def writeFiles (fs : FS) (d : Path) : List String → Except FS FS
  | [] => .ok fs
  | f :: rest =>
    match openWrite fs (d ++ pathSegs f) with
    | .ok g => writeFiles g d rest
    | .error g => .error g

/-- The resolved full path of an entry's directory:
`os.path.join(base_dir, folder)`. -/
def entryDir (b : String) (e : String × List String) : Path :=
  pathSegs b ++ pathSegs e.1

/-- One iteration of the outer loop of estructura.py: `os.makedirs` for the
folder, then the listed files. -/
def runEntry (fs : FS) (b : String) (e : String × List String) : Except FS FS :=
  match makedirs fs (entryDir b e) with
  | .ok g => writeFiles g (entryDir b e) e.2
  | .error g => .error g

/-- The outer loop of estructura.py over the entries of the table, in
order. -/
def run (fs : FS) (b : String) : List (String × List String) → Except FS FS
  | [] => .ok fs
  | e :: rest =>
    match runEntry fs b e with
    | .ok g => run g b rest
    | .error g => .error g

/-- The constant base_dir from estructura.py. -/
def base_dir : String := "src"

/-- The hardcoded table `structure` from estructura.py (renamed because
`structure` is a Lean keyword), in the dict's insertion order. -/
def scaffold_structure : List (String × List String) :=
  [ ("components/auth", ["LoginPage.jsx", "ProtectedRoute.jsx"]),
    ("components/camas", ["AdminDashboard.jsx", "CamaForm.jsx", "CamaViewer.jsx",
      "QrGenerator.jsx", "SearchBar.jsx"]),
    ("components/layout", ["Navbar.jsx"]),
    ("firebase", ["config.js"]),
    ("hooks", ["useAuth.js"]),
    ("pages", ["AdminPage.jsx", "CamaPage.jsx", "HomePage.jsx"]),
    (".", ["App.jsx", "main.jsx", "routes.jsx"]) ]

/-- The whole script: one run of the hardcoded table against `base_dir`. -/
def scaffold (fs : FS) : Except FS FS :=
  run fs base_dir scaffold_structure

/-- A path currently holds a regular file (of any content). -/
def hasFile (fs : FS) (p : Path) : Prop :=
  ∃ c, fs p = some (Node.file c)

/-- Real filesystem states are ancestor-closed: every strict nonempty
ancestor of an existing path is a directory. -/
def FS.wf (fs : FS) : Prop :=
  ∀ p, fs p ≠ none → ∀ k, 0 < k → k < p.length → fs (p.take k) = some Node.dir

/-- A well-formed relative directory key: `"."` for the project root, or
slash-separated nonempty segments (hence relative: no leading slash). -/
def validRelDir (s : String) : Bool :=
  s = "." || (splitSlash s.data).all (fun seg => seg ≠ [])

/-- A well-formed file name: nonempty and without path separators. -/
def validFileName (f : String) : Bool :=
  f ≠ "" && f.data.all (fun c => c ≠ '/' && c ≠ '\\')

/-- The paths a run of `spec` under base `b` may write to: the nonempty
ancestors of each entry's directory, and each entry's file paths. -/
def touches (b : String) (spec : List (String × List String)) (q : Path) : Bool :=
  spec.any (fun e =>
    ((List.range (entryDir b e).length).any
      (fun i => decide (q = (entryDir b e).take (i + 1)))) ||
    e.2.any (fun f => decide (q = entryDir b e ++ pathSegs f)))

/-- The everywhere-empty filesystem. -/
def fsEmpty : FS := fun _ => none

/-- A one-entry spec used to instantiate the general theorems. -/
def specW : List (String × List String) := [("hooks", ["useAuth.js"])]

/-- The state a run of `specW` from the empty filesystem produces. -/
def fsResW : FS :=
  FS.update (FS.update (FS.update fsEmpty ["src"] Node.dir) ["src", "hooks"] Node.dir)
    ["src", "hooks", "useAuth.js"] (Node.file "")

/-- A spec whose single entry needs three missing intermediate directories. -/
def spec5 : List (String × List String) := [("a/b/c", [])]

/-- The state a run of `spec5` from the empty filesystem produces. -/
def fsRes5 : FS :=
  FS.update (FS.update (FS.update (FS.update fsEmpty ["src"] Node.dir)
    ["src", "a"] Node.dir) ["src", "a", "b"] Node.dir) ["src", "a", "b", "c"] Node.dir

/-- A state that already holds a non-empty file at src/hooks/useAuth.js. -/
def fs4 : FS := fun q =>
  if q = ["src"] then some Node.dir
  else if q = ["src", "hooks"] then some Node.dir
  else if q = ["src", "hooks", "useAuth.js"] then some (Node.file "console.log(42);")
  else none

/-- The state after the run that truncates the pre-existing file. -/
def fs4out : FS := FS.update fs4 ["src", "hooks", "useAuth.js"] (Node.file "")

/-- A state in which src/hooks is a file, so the second entry of `spec6`
fails. -/
def fs6 : FS :=
  FS.update (FS.update fsEmpty ["src"] Node.dir) ["src", "hooks"] (Node.file "oops")

/-- A two-entry spec whose second entry fails on `fs6`. -/
def spec6 : List (String × List String) := [(".", ["App.jsx"]), ("hooks", ["useAuth.js"])]

/-- The state at the failure of running `spec6` on `fs6`: the first entry's
file is already in place. -/
def fs6err : FS := FS.update fs6 ["src", "App.jsx"] (Node.file "")

/-- A well-formed state in which src/hooks already exists as a directory. -/
def fsW7 : FS := fun q =>
  if q = ["src"] ∨ q = ["src", "hooks"] then some Node.dir else none

/-- A state holding an unrelated file that a run must not disturb. -/
def fs9 : FS := fun q => if q = ["keep.txt"] then some (Node.file "data") else none

/-- The state a run of `specW` from `fs9` produces. -/
def fsRes9 : FS :=
  FS.update (FS.update (FS.update fs9 ["src"] Node.dir) ["src", "hooks"] Node.dir)
    ["src", "hooks", "useAuth.js"] (Node.file "")

/-- The state `makedirs` reaches from the empty filesystem for src/hooks. -/
def fs10 : FS := FS.update (FS.update fsEmpty ["src"] Node.dir) ["src", "hooks"] Node.dir

theorem FS.update_apply (fs : FS) (p : Path) (n : Node) (q : Path) :
    FS.update fs p n q = if q = p then some n else fs q := rfl

theorem FS.update_ne (fs : FS) (p : Path) (n : Node) (q : Path) (h : q ≠ p) :
    FS.update fs p n q = fs q := by
  simp [FS.update, h]

theorem FS.update_self (fs : FS) (p : Path) (n : Node) :
    FS.update fs p n p = some n := by
  simp [FS.update]

theorem FS.isDir_iff (fs : FS) (q : Path) :
    FS.isDir fs q = true ↔ fs q = some Node.dir := by
  unfold FS.isDir
  cases h : fs q with
  | none => simp
  | some n => cases n <;> simp

theorem append_singleton_cons {α : Type} (as : List α) (b : α) (bs : List α) :
    (as ++ [b]) ++ bs = as ++ b :: bs := by
  simp

theorem makedirsAux_pres (rest : List String) (fs : FS) (done q : Path) (v : Node)
    (h : fs q = some v) : resState (makedirsAux fs done rest) q = some v := by
  induction rest generalizing fs done with
  | nil => simpa [makedirsAux, resState] using h
  | cons s rest ih =>
    cases hn : fs (done ++ [s]) with
    | none =>
      have hq : q ≠ done ++ [s] := by
        intro e
        rw [e, hn] at h
        exact Option.noConfusion h
      simp only [makedirsAux, hn]
      exact ih _ _ (by rw [FS.update_ne fs _ _ q hq]; exact h)
    | some n =>
      cases n with
      | dir =>
        simp only [makedirsAux, hn]
        exact ih fs (done ++ [s]) h
      | file c =>
        simpa [makedirsAux, hn, resState] using h

theorem makedirsAux_ok_post (rest : List String) (fs' : FS) :
    ∀ (fs : FS) (done : Path), makedirsAux fs done rest = .ok fs' →
      ∀ k, 0 < k → k ≤ rest.length → fs' (done ++ rest.take k) = some Node.dir := by
  induction rest with
  | nil =>
    intro fs done h k hk0 hk
    simp at hk
    omega
  | cons s rest ih =>
    intro fs done h k hk0 hk
    cases hn : fs (done ++ [s]) with
    | none =>
      simp only [makedirsAux, hn] at h
      match k, hk0 with
      | 1, _ =>
        have h1 : FS.update fs (done ++ [s]) Node.dir (done ++ [s]) = some Node.dir :=
          FS.update_self fs _ _
        have := makedirsAux_pres rest _ (done ++ [s]) (done ++ [s]) Node.dir h1
        rw [h] at this
        simpa [resState] using this
      | (k' + 2), _ =>
        have hlen : k' + 1 ≤ rest.length := by
          simp at hk
          omega
        have := ih _ (done ++ [s]) h (k' + 1) (by omega) hlen
        simpa only [List.take_succ_cons, append_singleton_cons] using this
    | some n =>
      cases n with
      | dir =>
        simp only [makedirsAux, hn] at h
        match k, hk0 with
        | 1, _ =>
          have := makedirsAux_pres rest fs (done ++ [s]) (done ++ [s]) Node.dir hn
          rw [h] at this
          simpa [resState] using this
        | (k' + 2), _ =>
          have hlen : k' + 1 ≤ rest.length := by
            simp at hk
            omega
          have := ih fs (done ++ [s]) h (k' + 1) (by omega) hlen
          simpa only [List.take_succ_cons, append_singleton_cons] using this
      | file c =>
        simp only [makedirsAux, hn] at h
        exact Except.noConfusion h

theorem makedirsAux_self (rest : List String) (fs : FS) : ∀ (done : Path),
    (∀ k, 0 < k → k ≤ rest.length → fs (done ++ rest.take k) = some Node.dir) →
    makedirsAux fs done rest = .ok fs := by
  induction rest with
  | nil => intro done _; rfl
  | cons s rest ih =>
    intro done h
    have h1 : fs (done ++ [s]) = some Node.dir := by
      simpa using h 1 one_pos (by simp)
    simp only [makedirsAux, h1]
    refine ih (done ++ [s]) (fun k hk0 hk => ?_)
    have := h (k + 1) (by omega) (by simp; omega)
    simpa only [List.take_succ_cons, append_singleton_cons] using this

theorem makedirsAux_frame (rest : List String) : ∀ (fs : FS) (done q : Path),
    (∀ k, 0 < k → k ≤ rest.length → q ≠ done ++ rest.take k) →
    resState (makedirsAux fs done rest) q = fs q := by
  induction rest with
  | nil => intro fs done q _; rfl
  | cons s rest ih =>
    intro fs done q h
    have hq1 : q ≠ done ++ [s] := by
      simpa using h 1 one_pos (by simp)
    have hrest : ∀ k, 0 < k → k ≤ rest.length → q ≠ (done ++ [s]) ++ rest.take k := by
      intro k hk0 hk
      have := h (k + 1) (by omega) (by simp; omega)
      simpa only [List.take_succ_cons, append_singleton_cons] using this
    cases hn : fs (done ++ [s]) with
    | none =>
      simp only [makedirsAux, hn]
      rw [ih _ (done ++ [s]) q hrest]
      exact FS.update_ne fs _ _ q hq1
    | some n =>
      cases n with
      | dir =>
        simp only [makedirsAux, hn]
        exact ih fs (done ++ [s]) q hrest
      | file c =>
        simp [makedirsAux, hn, resState]

theorem makedirs_pres (fs : FS) (p q : Path) (v : Node) (h : fs q = some v) :
    resState (makedirs fs p) q = some v :=
  makedirsAux_pres p fs [] q v h

theorem makedirs_ok_post (fs fs' : FS) (p : Path) (h : makedirs fs p = .ok fs') :
    ∀ k, 0 < k → k ≤ p.length → fs' (p.take k) = some Node.dir := by
  intro k hk0 hk
  simpa using makedirsAux_ok_post p fs' fs [] h k hk0 hk

theorem makedirs_self (fs : FS) (p : Path)
    (h : ∀ k, 0 < k → k ≤ p.length → fs (p.take k) = some Node.dir) :
    makedirs fs p = .ok fs :=
  makedirsAux_self p fs [] (by simpa using h)

theorem makedirs_frame (fs : FS) (p q : Path)
    (h : ∀ k, 0 < k → k ≤ p.length → q ≠ p.take k) :
    resState (makedirs fs p) q = fs q :=
  makedirsAux_frame p fs [] q (by simpa using h)

theorem openWrite_ok_elim (fs g : FS) (p : Path) (h : openWrite fs p = .ok g) :
    g = FS.update fs p (Node.file "") ∧ p ≠ [] ∧ FS.isDir fs p = false ∧
      properParentsOk fs p = true := by
  simp only [openWrite] at h
  split_ifs at h with h1 h2 h3
  exact ⟨(Except.ok.inj h).symm, h1, by simpa using h2, h3⟩

theorem openWrite_error_elim (fs g : FS) (p : Path) (h : openWrite fs p = .error g) :
    g = fs := by
  simp only [openWrite] at h
  split_ifs at h with h1 h2 h3
  all_goals exact (Except.error.inj h).symm

theorem openWrite_of_file (fs : FS) (p : Path) (c : String) (hne : p ≠ [])
    (hf : fs p = some (Node.file c)) (hpar : properParentsOk fs p = true) :
    openWrite fs p = .ok (FS.update fs p (Node.file "")) := by
  have hd : FS.isDir fs p = false := by
    simp [FS.isDir, hf]
  simp [openWrite, hne, hd, hpar]

theorem openWrite_pres_dir (fs : FS) (p q : Path) (h : fs q = some Node.dir) :
    resState (openWrite fs p) q = some Node.dir := by
  simp only [openWrite]
  split_ifs with h1 h2 h3
  · simpa [resState] using h
  · simpa [resState] using h
  · have hqp : q ≠ p := by
      intro e
      rw [e] at h
      rw [(FS.isDir_iff fs p).mpr h] at h2
      exact h2 rfl
    simp [resState, FS.update_ne fs _ _ q hqp, h]
  · simpa [resState] using h

theorem openWrite_pres_file0 (fs : FS) (p q : Path) (h : fs q = some (Node.file "")) :
    resState (openWrite fs p) q = some (Node.file "") := by
  simp only [openWrite]
  split_ifs with h1 h2 h3
  · simpa [resState] using h
  · simpa [resState] using h
  · by_cases hqp : q = p
    · subst hqp
      simp [resState, FS.update_self]
    · simp [resState, FS.update_ne fs _ _ q hqp, h]
  · simpa [resState] using h

theorem openWrite_pres_hasFile (fs : FS) (p q : Path) (h : hasFile fs q) :
    hasFile (resState (openWrite fs p)) q := by
  obtain ⟨c, hc⟩ := h
  simp only [openWrite]
  split_ifs with h1 h2 h3
  · exact ⟨c, by simpa [resState] using hc⟩
  · exact ⟨c, by simpa [resState] using hc⟩
  · by_cases hqp : q = p
    · subst hqp
      exact ⟨"", by simp [resState, FS.update_self]⟩
    · exact ⟨c, by simp [resState, FS.update_ne fs _ _ q hqp, hc]⟩
  · exact ⟨c, by simpa [resState] using hc⟩

theorem openWrite_frame (fs : FS) (p q : Path) (hqp : q ≠ p) :
    resState (openWrite fs p) q = fs q := by
  simp only [openWrite]
  split_ifs with h1 h2 h3
  · simp [resState]
  · simp [resState]
  · simp [resState, FS.update_ne fs _ _ q hqp]
  · simp [resState]

theorem properParentsOk_mono (fs g : FS) (p : Path)
    (hmono : ∀ q, fs q = some Node.dir → g q = some Node.dir)
    (h : properParentsOk fs p = true) : properParentsOk g p = true := by
  simp only [properParentsOk, List.all_eq_true] at h ⊢
  intro n hn
  have hd := h n hn
  rw [FS.isDir_iff] at hd ⊢
  exact hmono _ hd

theorem writeFiles_pres_dir (files : List String) (fs : FS) (d q : Path)
    (h : fs q = some Node.dir) : resState (writeFiles fs d files) q = some Node.dir := by
  induction files generalizing fs with
  | nil => simpa [writeFiles, resState] using h
  | cons f rest ih =>
    cases hw : openWrite fs (d ++ pathSegs f) with
    | ok g =>
      have hg := openWrite_pres_dir fs (d ++ pathSegs f) q h
      rw [hw] at hg
      simp only [resState] at hg
      simp only [writeFiles, hw]
      exact ih g hg
    | error g =>
      have hg := openWrite_pres_dir fs (d ++ pathSegs f) q h
      rw [hw] at hg
      simpa [writeFiles, hw, resState] using hg

theorem writeFiles_pres_file0 (files : List String) (fs : FS) (d q : Path)
    (h : fs q = some (Node.file "")) :
    resState (writeFiles fs d files) q = some (Node.file "") := by
  induction files generalizing fs with
  | nil => simpa [writeFiles, resState] using h
  | cons f rest ih =>
    cases hw : openWrite fs (d ++ pathSegs f) with
    | ok g =>
      have hg := openWrite_pres_file0 fs (d ++ pathSegs f) q h
      rw [hw] at hg
      simp only [resState] at hg
      simp only [writeFiles, hw]
      exact ih g hg
    | error g =>
      have hg := openWrite_pres_file0 fs (d ++ pathSegs f) q h
      rw [hw] at hg
      simpa [writeFiles, hw, resState] using hg

theorem writeFiles_pres_hasFile (files : List String) (fs : FS) (d q : Path)
    (h : hasFile fs q) : hasFile (resState (writeFiles fs d files)) q := by
  induction files generalizing fs with
  | nil => simpa [writeFiles, resState] using h
  | cons f rest ih =>
    cases hw : openWrite fs (d ++ pathSegs f) with
    | ok g =>
      have hg := openWrite_pres_hasFile fs (d ++ pathSegs f) q h
      rw [hw] at hg
      simp only [resState] at hg
      simp only [writeFiles, hw]
      exact ih g hg
    | error g =>
      have hg := openWrite_pres_hasFile fs (d ++ pathSegs f) q h
      rw [hw] at hg
      simpa [writeFiles, hw, resState] using hg

theorem writeFiles_frame (files : List String) (fs : FS) (d q : Path)
    (h : ∀ f ∈ files, q ≠ d ++ pathSegs f) :
    resState (writeFiles fs d files) q = fs q := by
  induction files generalizing fs with
  | nil => simp [writeFiles, resState]
  | cons f rest ih =>
    have hq : q ≠ d ++ pathSegs f := h f (List.mem_cons_self f rest)
    have hw0 := openWrite_frame fs (d ++ pathSegs f) q hq
    cases hw : openWrite fs (d ++ pathSegs f) with
    | ok g =>
      rw [hw] at hw0
      simp only [resState] at hw0
      simp only [writeFiles, hw]
      rw [ih g (fun f' hf' => h f' (List.mem_cons_of_mem f hf'))]
      exact hw0
    | error g =>
      rw [hw] at hw0
      simpa [writeFiles, hw, resState] using hw0

theorem writeFiles_ok_post (files : List String) (g : FS) : ∀ (fs : FS) (d : Path),
    writeFiles fs d files = .ok g →
    ∀ f ∈ files, g (d ++ pathSegs f) = some (Node.file "") ∧
      properParentsOk g (d ++ pathSegs f) = true ∧ d ++ pathSegs f ≠ [] := by
  induction files with
  | nil =>
    intro fs d _ f hf
    simp at hf
  | cons f0 rest ih =>
    intro fs d h f hf
    cases hw : openWrite fs (d ++ pathSegs f0) with
    | error g0 =>
      simp only [writeFiles, hw] at h
      exact Except.noConfusion h
    | ok g0 =>
      simp only [writeFiles, hw] at h
      rcases List.mem_cons.mp hf with rfl | hf'
      · obtain ⟨hg0, hne, hdir, hpar⟩ := openWrite_ok_elim fs g0 _ hw
        subst hg0
        refine ⟨?_, ?_, hne⟩
        · have h0 : FS.update fs (d ++ pathSegs f) (Node.file "") (d ++ pathSegs f) =
              some (Node.file "") := FS.update_self _ _ _
          have hkeep := writeFiles_pres_file0 rest _ d (d ++ pathSegs f) h0
          rw [h] at hkeep
          simpa [resState] using hkeep
        · have hm : ∀ q, fs q = some Node.dir →
              FS.update fs (d ++ pathSegs f) (Node.file "") q = some Node.dir := by
            intro q hq
            have hqp : q ≠ d ++ pathSegs f := by
              intro e
              rw [e] at hq
              rw [(FS.isDir_iff fs _).mpr hq] at hdir
              exact Bool.noConfusion hdir
            rw [FS.update_ne fs _ _ q hqp]
            exact hq
          have hp1 : properParentsOk (FS.update fs (d ++ pathSegs f) (Node.file ""))
              (d ++ pathSegs f) = true :=
            properParentsOk_mono fs _ _ hm hpar
          refine properParentsOk_mono _ g (d ++ pathSegs f) (fun q hq => ?_) hp1
          have hkeep := writeFiles_pres_dir rest _ d q hq
          rw [h] at hkeep
          simpa [resState] using hkeep
      · exact ih g0 d h f hf'

theorem writeFiles_replay (files : List String) : ∀ (fs : FS) (d : Path),
    (∀ f ∈ files, d ++ pathSegs f ≠ [] ∧ hasFile fs (d ++ pathSegs f) ∧
      properParentsOk fs (d ++ pathSegs f) = true) →
    ∃ g, writeFiles fs d files = .ok g ∧
      ∀ q, g q = fs q ∨ ∃ f ∈ files, q = d ++ pathSegs f := by
  induction files with
  | nil =>
    intro fs d _
    exact ⟨fs, rfl, fun q => Or.inl rfl⟩
  | cons f0 rest ih =>
    intro fs d h
    obtain ⟨hne, ⟨c, hc⟩, hpar⟩ := h f0 (List.mem_cons_self f0 rest)
    have hw := openWrite_of_file fs (d ++ pathSegs f0) c hne hc hpar
    have hm : ∀ q, fs q = some Node.dir →
        FS.update fs (d ++ pathSegs f0) (Node.file "") q = some Node.dir := by
      intro q hq
      have hqp : q ≠ d ++ pathSegs f0 := by
        intro e
        rw [e, hc] at hq
        simp at hq
      rw [FS.update_ne fs _ _ q hqp]
      exact hq
    have hcond : ∀ f ∈ rest, d ++ pathSegs f ≠ [] ∧
        hasFile (FS.update fs (d ++ pathSegs f0) (Node.file "")) (d ++ pathSegs f) ∧
        properParentsOk (FS.update fs (d ++ pathSegs f0) (Node.file ""))
          (d ++ pathSegs f) = true := by
      intro f hf
      obtain ⟨hne', hhf', hpar'⟩ := h f (List.mem_cons_of_mem f0 hf)
      refine ⟨hne', ?_, properParentsOk_mono fs _ _ hm hpar'⟩
      by_cases hqp : d ++ pathSegs f = d ++ pathSegs f0
      · rw [hqp]
        exact ⟨"", FS.update_self _ _ _⟩
      · obtain ⟨c', hc'⟩ := hhf'
        exact ⟨c', by rw [FS.update_ne fs _ _ _ hqp]; exact hc'⟩
    obtain ⟨g, hg, hframe⟩ := ih (FS.update fs (d ++ pathSegs f0) (Node.file "")) d hcond
    refine ⟨g, ?_, ?_⟩
    · simp only [writeFiles, hw]
      exact hg
    · intro q
      rcases hframe q with heq | ⟨f, hf, hq⟩
      · by_cases hqp : q = d ++ pathSegs f0
        · exact Or.inr ⟨f0, List.mem_cons_self f0 rest, hqp⟩
        · exact Or.inl (heq.trans (FS.update_ne fs _ _ q hqp))
      · exact Or.inr ⟨f, List.mem_cons_of_mem f0 hf, hq⟩

theorem writeFiles_error_isdir (files : List String) : ∀ (fs g : FS) (d : Path),
    (∀ f ∈ files, d ++ pathSegs f ≠ [] ∧ properParentsOk fs (d ++ pathSegs f) = true) →
    writeFiles fs d files = .error g →
    ∃ f ∈ files, FS.isDir g (d ++ pathSegs f) = true := by
  induction files with
  | nil =>
    intro fs g d _ h
    simp only [writeFiles] at h
    exact Except.noConfusion h
  | cons f0 rest ih =>
    intro fs g d hcond h
    cases hw : openWrite fs (d ++ pathSegs f0) with
    | ok g0 =>
      simp only [writeFiles, hw] at h
      have hcond' : ∀ f ∈ rest, d ++ pathSegs f ≠ [] ∧
          properParentsOk g0 (d ++ pathSegs f) = true := by
        intro f hf
        obtain ⟨hne', hpar'⟩ := hcond f (List.mem_cons_of_mem f0 hf)
        refine ⟨hne', properParentsOk_mono fs g0 _ (fun q hq => ?_) hpar'⟩
        have hkeep := openWrite_pres_dir fs (d ++ pathSegs f0) q hq
        rw [hw] at hkeep
        simpa [resState] using hkeep
      obtain ⟨f, hf, hd⟩ := ih g0 g d hcond' h
      exact ⟨f, List.mem_cons_of_mem f0 hf, hd⟩
    | error g0 =>
      simp only [writeFiles, hw] at h
      have hgg : g0 = g := Except.error.inj h
      have hg0 : g0 = fs := openWrite_error_elim fs g0 _ hw
      obtain ⟨hne, hpar⟩ := hcond f0 (List.mem_cons_self f0 rest)
      have hdir : FS.isDir fs (d ++ pathSegs f0) = true := by
        by_contra hcda
        have hc' : FS.isDir fs (d ++ pathSegs f0) = false := by simpa using hcda
        simp [openWrite, hne, hc', hpar] at hw
      exact ⟨f0, List.mem_cons_self f0 rest, by rw [← hgg, hg0]; exact hdir⟩

theorem runEntry_pres_dir (fs : FS) (b : String) (e : String × List String) (q : Path)
    (h : fs q = some Node.dir) : resState (runEntry fs b e) q = some Node.dir := by
  cases hm : makedirs fs (entryDir b e) with
  | ok g =>
    have hg := makedirs_pres fs (entryDir b e) q Node.dir h
    rw [hm] at hg
    simp only [resState] at hg
    simp only [runEntry, hm]
    exact writeFiles_pres_dir e.2 g (entryDir b e) q hg
  | error g =>
    have hg := makedirs_pres fs (entryDir b e) q Node.dir h
    rw [hm] at hg
    simpa [runEntry, hm, resState] using hg

theorem runEntry_pres_file0 (fs : FS) (b : String) (e : String × List String) (q : Path)
    (h : fs q = some (Node.file "")) :
    resState (runEntry fs b e) q = some (Node.file "") := by
  cases hm : makedirs fs (entryDir b e) with
  | ok g =>
    have hg := makedirs_pres fs (entryDir b e) q (Node.file "") h
    rw [hm] at hg
    simp only [resState] at hg
    simp only [runEntry, hm]
    exact writeFiles_pres_file0 e.2 g (entryDir b e) q hg
  | error g =>
    have hg := makedirs_pres fs (entryDir b e) q (Node.file "") h
    rw [hm] at hg
    simpa [runEntry, hm, resState] using hg

theorem runEntry_pres_hasFile (fs : FS) (b : String) (e : String × List String) (q : Path)
    (h : hasFile fs q) : hasFile (resState (runEntry fs b e)) q := by
  obtain ⟨c, hc⟩ := h
  cases hm : makedirs fs (entryDir b e) with
  | ok g =>
    have hg := makedirs_pres fs (entryDir b e) q (Node.file c) hc
    rw [hm] at hg
    simp only [resState] at hg
    simp only [runEntry, hm]
    exact writeFiles_pres_hasFile e.2 g (entryDir b e) q ⟨c, hg⟩
  | error g =>
    have hg := makedirs_pres fs (entryDir b e) q (Node.file c) hc
    rw [hm] at hg
    simp only [resState] at hg
    simp only [runEntry, hm, resState]
    exact ⟨c, hg⟩

theorem runEntry_ok_post (fs g : FS) (b : String) (e : String × List String)
    (h : runEntry fs b e = .ok g) :
    (∀ k, 0 < k → k ≤ (entryDir b e).length → g ((entryDir b e).take k) = some Node.dir) ∧
    (∀ f ∈ e.2, g (entryDir b e ++ pathSegs f) = some (Node.file "") ∧
      properParentsOk g (entryDir b e ++ pathSegs f) = true ∧
      entryDir b e ++ pathSegs f ≠ []) := by
  cases hm : makedirs fs (entryDir b e) with
  | error g0 =>
    simp only [runEntry, hm] at h
    exact Except.noConfusion h
  | ok g0 =>
    simp only [runEntry, hm] at h
    constructor
    · intro k hk0 hk
      have hd := makedirs_ok_post fs g0 (entryDir b e) hm k hk0 hk
      have hkeep := writeFiles_pres_dir e.2 g0 (entryDir b e) _ hd
      rw [h] at hkeep
      simpa [resState] using hkeep
    · exact writeFiles_ok_post e.2 g g0 (entryDir b e) h

theorem runEntry_replay (fs : FS) (b : String) (e : String × List String)
    (hdirs : ∀ k, 0 < k → k ≤ (entryDir b e).length →
      fs ((entryDir b e).take k) = some Node.dir)
    (hfiles : ∀ f ∈ e.2, entryDir b e ++ pathSegs f ≠ [] ∧
      hasFile fs (entryDir b e ++ pathSegs f) ∧
      properParentsOk fs (entryDir b e ++ pathSegs f) = true) :
    ∃ g, runEntry fs b e = .ok g ∧
      ∀ q, g q = fs q ∨ ∃ f ∈ e.2, q = entryDir b e ++ pathSegs f := by
  have hm := makedirs_self fs (entryDir b e) hdirs
  obtain ⟨g, hg, hframe⟩ := writeFiles_replay e.2 fs (entryDir b e) hfiles
  exact ⟨g, by simp only [runEntry, hm]; exact hg, hframe⟩

theorem runEntry_frame (fs : FS) (b : String) (e : String × List String) (q : Path)
    (hd : ∀ k, 0 < k → k ≤ (entryDir b e).length → q ≠ (entryDir b e).take k)
    (hf : ∀ f ∈ e.2, q ≠ entryDir b e ++ pathSegs f) :
    resState (runEntry fs b e) q = fs q := by
  have hmf := makedirs_frame fs (entryDir b e) q hd
  cases hm : makedirs fs (entryDir b e) with
  | ok g =>
    rw [hm] at hmf
    simp only [resState] at hmf
    simp only [runEntry, hm]
    rw [writeFiles_frame e.2 g (entryDir b e) q hf]
    exact hmf
  | error g =>
    rw [hm] at hmf
    simpa [runEntry, hm, resState] using hmf

theorem run_pres_dir (spec : List (String × List String)) : ∀ (fs : FS) (b : String)
    (q : Path), fs q = some Node.dir → resState (run fs b spec) q = some Node.dir := by
  induction spec with
  | nil =>
    intro fs b q h
    simpa [run, resState] using h
  | cons e rest ih =>
    intro fs b q h
    have hkeep := runEntry_pres_dir fs b e q h
    cases hr : runEntry fs b e with
    | ok g =>
      rw [hr] at hkeep
      simp only [resState] at hkeep
      simp only [run, hr]
      exact ih g b q hkeep
    | error g =>
      rw [hr] at hkeep
      simpa [run, hr, resState] using hkeep

theorem run_pres_file0 (spec : List (String × List String)) : ∀ (fs : FS) (b : String)
    (q : Path), fs q = some (Node.file "") →
    resState (run fs b spec) q = some (Node.file "") := by
  induction spec with
  | nil =>
    intro fs b q h
    simpa [run, resState] using h
  | cons e rest ih =>
    intro fs b q h
    have hkeep := runEntry_pres_file0 fs b e q h
    cases hr : runEntry fs b e with
    | ok g =>
      rw [hr] at hkeep
      simp only [resState] at hkeep
      simp only [run, hr]
      exact ih g b q hkeep
    | error g =>
      rw [hr] at hkeep
      simpa [run, hr, resState] using hkeep

theorem run_pres_hasFile (spec : List (String × List String)) : ∀ (fs : FS) (b : String)
    (q : Path), hasFile fs q → hasFile (resState (run fs b spec)) q := by
  induction spec with
  | nil =>
    intro fs b q h
    simpa [run, resState] using h
  | cons e rest ih =>
    intro fs b q h
    have hkeep := runEntry_pres_hasFile fs b e q h
    cases hr : runEntry fs b e with
    | ok g =>
      rw [hr] at hkeep
      simp only [resState] at hkeep
      simp only [run, hr]
      exact ih g b q hkeep
    | error g =>
      rw [hr] at hkeep
      simpa [run, hr, resState] using hkeep

theorem run_ok_post (spec : List (String × List String)) (fs' : FS) : ∀ (fs : FS)
    (b : String), run fs b spec = .ok fs' →
    ∀ e ∈ spec,
      (∀ k, 0 < k → k ≤ (entryDir b e).length →
        fs' ((entryDir b e).take k) = some Node.dir) ∧
      (∀ f ∈ e.2, fs' (entryDir b e ++ pathSegs f) = some (Node.file "") ∧
        properParentsOk fs' (entryDir b e ++ pathSegs f) = true ∧
        entryDir b e ++ pathSegs f ≠ []) := by
  induction spec with
  | nil =>
    intro fs b _ e he
    simp at he
  | cons e0 rest ih =>
    intro fs b h e he
    cases hr : runEntry fs b e0 with
    | error g =>
      simp only [run, hr] at h
      exact Except.noConfusion h
    | ok g =>
      simp only [run, hr] at h
      rcases List.mem_cons.mp he with rfl | he'
      · obtain ⟨hdirs, hfiles⟩ := runEntry_ok_post fs g b e hr
        constructor
        · intro k hk0 hk
          have hkeep := run_pres_dir rest g b _ (hdirs k hk0 hk)
          rw [h] at hkeep
          simpa [resState] using hkeep
        · intro f hfm
          obtain ⟨h1, h2, h3⟩ := hfiles f hfm
          refine ⟨?_, ?_, h3⟩
          · have hkeep := run_pres_file0 rest g b _ h1
            rw [h] at hkeep
            simpa [resState] using hkeep
          · refine properParentsOk_mono g fs' _ (fun r hr' => ?_) h2
            have hkeep := run_pres_dir rest g b r hr'
            rw [h] at hkeep
            simpa [resState] using hkeep
      · exact ih g b h e he'

theorem run_replay (spec : List (String × List String)) : ∀ (fs : FS) (b : String),
    (∀ e ∈ spec,
      (∀ k, 0 < k → k ≤ (entryDir b e).length →
        fs ((entryDir b e).take k) = some Node.dir) ∧
      (∀ f ∈ e.2, entryDir b e ++ pathSegs f ≠ [] ∧
        hasFile fs (entryDir b e ++ pathSegs f) ∧
        properParentsOk fs (entryDir b e ++ pathSegs f) = true)) →
    ∃ g, run fs b spec = .ok g ∧
      ∀ q, g q = fs q ∨ ∃ e ∈ spec, ∃ f ∈ e.2, q = entryDir b e ++ pathSegs f := by
  induction spec with
  | nil =>
    intro fs b _
    exact ⟨fs, rfl, fun q => Or.inl rfl⟩
  | cons e0 rest ih =>
    intro fs b h
    obtain ⟨g1, hg1, hframe1⟩ := runEntry_replay fs b e0
      (h e0 (List.mem_cons_self e0 rest)).1 (h e0 (List.mem_cons_self e0 rest)).2
    have hcond : ∀ e ∈ rest,
        (∀ k, 0 < k → k ≤ (entryDir b e).length →
          g1 ((entryDir b e).take k) = some Node.dir) ∧
        (∀ f ∈ e.2, entryDir b e ++ pathSegs f ≠ [] ∧
          hasFile g1 (entryDir b e ++ pathSegs f) ∧
          properParentsOk g1 (entryDir b e ++ pathSegs f) = true) := by
      intro e he
      obtain ⟨hdirs, hfiles⟩ := h e (List.mem_cons_of_mem e0 he)
      constructor
      · intro k hk0 hk
        have hkeep := runEntry_pres_dir fs b e0 _ (hdirs k hk0 hk)
        rw [hg1] at hkeep
        simpa [resState] using hkeep
      · intro f hfm
        obtain ⟨h1, h2, h3⟩ := hfiles f hfm
        refine ⟨h1, ?_, ?_⟩
        · have hkeep := runEntry_pres_hasFile fs b e0 _ h2
          rw [hg1] at hkeep
          simpa [resState] using hkeep
        · refine properParentsOk_mono fs g1 _ (fun r hr' => ?_) h3
          have hkeep := runEntry_pres_dir fs b e0 r hr'
          rw [hg1] at hkeep
          simpa [resState] using hkeep
    obtain ⟨g, hg, hframe⟩ := ih g1 b hcond
    refine ⟨g, by simp only [run, hg1]; exact hg, ?_⟩
    intro q
    rcases hframe q with heq | ⟨e, he, f, hf, hq⟩
    · rcases hframe1 q with heq1 | ⟨f, hf, hq⟩
      · exact Or.inl (heq.trans heq1)
      · exact Or.inr ⟨e0, List.mem_cons_self e0 rest, f, hf, hq⟩
    · exact Or.inr ⟨e, List.mem_cons_of_mem e0 he, f, hf, hq⟩

theorem run_frame_aux (spec : List (String × List String)) : ∀ (fs : FS) (b : String)
    (q : Path),
    (∀ e ∈ spec,
      (∀ k, 0 < k → k ≤ (entryDir b e).length → q ≠ (entryDir b e).take k) ∧
      (∀ f ∈ e.2, q ≠ entryDir b e ++ pathSegs f)) →
    resState (run fs b spec) q = fs q := by
  induction spec with
  | nil =>
    intro fs b q _
    rfl
  | cons e0 rest ih =>
    intro fs b q h
    have hf0 := runEntry_frame fs b e0 q (h e0 (List.mem_cons_self e0 rest)).1
      (h e0 (List.mem_cons_self e0 rest)).2
    cases hr : runEntry fs b e0 with
    | ok g =>
      rw [hr] at hf0
      simp only [resState] at hf0
      simp only [run, hr]
      rw [ih g b q (fun e he => h e (List.mem_cons_of_mem e0 he))]
      exact hf0
    | error g =>
      rw [hr] at hf0
      simpa [run, hr, resState] using hf0

theorem take_append_le {α : Type} (l1 l2 : List α) (n : Nat) (h : n ≤ l1.length) :
    (l1 ++ l2).take n = l1.take n := by
  rw [List.take_append_eq_append_take, Nat.sub_eq_zero_of_le h]
  simp

theorem touches_false_elim (b : String) (spec : List (String × List String)) (q : Path)
    (h : touches b spec q = false) :
    ∀ e ∈ spec, (∀ i, i < (entryDir b e).length → q ≠ (entryDir b e).take (i + 1)) ∧
      (∀ f ∈ e.2, q ≠ entryDir b e ++ pathSegs f) := by
  intro e he
  have he' := List.any_eq_false.mp h e he
  simp only [Bool.or_eq_true, List.any_eq_true, List.mem_range, decide_eq_true_eq] at he'
  push_neg at he'
  exact he'

theorem fsW7_wf : FS.wf fsW7 := by
  intro p hp k hk0 hk
  have hp' : p = ["src"] ∨ p = ["src", "hooks"] := by
    by_contra hc
    push_neg at hc
    apply hp
    simp [fsW7, hc.1, hc.2]
  rcases hp' with rfl | rfl
  · simp at hk
    omega
  · have hk1 : k = 1 := by
      simp at hk
      omega
    subst hk1
    decide

/-- C1: after a run of the scaffolder completes without a filesystem error,
every entry (relativeDir, fileNames) of the spec table has its directory
join(baseDir, relativeDir) present as a directory in the resulting state. -/
theorem run_creates_dirs (fs fs' : FS) (b : String) (spec : List (String × List String))
    (hb : pathSegs b ≠ []) (h : run fs b spec = .ok fs') :
    ∀ e ∈ spec, fs' (entryDir b e) = some Node.dir := by
  intro e he
  have hlen : 0 < (entryDir b e).length := by
    have hpos : 0 < (pathSegs b).length := List.length_pos.mpr hb
    simp only [entryDir, List.length_append]
    omega
  have hd := ((run_ok_post spec fs' fs b h) e he).1 (entryDir b e).length hlen le_rfl
  rwa [List.take_length] at hd

theorem run_creates_dirs_witness :
    fsResW (entryDir base_dir ("hooks", ["useAuth.js"])) = some Node.dir :=
  run_creates_dirs fsEmpty fsResW base_dir specW (by decide) rfl
    ("hooks", ["useAuth.js"]) (by decide)

/-- C2: after a run completes without a filesystem error, every file listed
in an entry exists at join(baseDir, relativeDir, fileName) with empty (zero
length) content, whatever the file held before the run. -/
theorem run_creates_empty_files (fs fs' : FS) (b : String)
    (spec : List (String × List String)) (h : run fs b spec = .ok fs') :
    ∀ e ∈ spec, ∀ f ∈ e.2, fs' (entryDir b e ++ pathSegs f) = some (Node.file "") := by
  intro e he f hf
  exact (((run_ok_post spec fs' fs b h) e he).2 f hf).1

theorem run_creates_empty_files_witness :
    fsResW (entryDir base_dir ("hooks", ["useAuth.js"]) ++ pathSegs "useAuth.js") =
      some (Node.file "") :=
  run_creates_empty_files fsEmpty fsResW base_dir specW rfl
    ("hooks", ["useAuth.js"]) (by decide) "useAuth.js" (by decide)

/-- C3: the run is idempotent: if a run from `fs` succeeds with final state
fs prime, running again from that state succeeds and ends in the very same
state; moreover, after foreign non-empty content is written to any one of
the target files, re-running restores exactly the once-run state, truncating
that file back to zero length. -/
theorem run_idempotent (fs fs' : FS) (b : String) (spec : List (String × List String))
    (h : run fs b spec = .ok fs') :
    run fs' b spec = .ok fs' ∧
    ∀ e ∈ spec, ∀ f ∈ e.2, ∀ c : String,
      run (FS.update fs' (entryDir b e ++ pathSegs f) (Node.file c)) b spec = .ok fs' := by
  have post := run_ok_post spec fs' fs b h
  constructor
  · have hcond : ∀ e ∈ spec,
        (∀ k, 0 < k → k ≤ (entryDir b e).length →
          fs' ((entryDir b e).take k) = some Node.dir) ∧
        (∀ f ∈ e.2, entryDir b e ++ pathSegs f ≠ [] ∧
          hasFile fs' (entryDir b e ++ pathSegs f) ∧
          properParentsOk fs' (entryDir b e ++ pathSegs f) = true) := by
      intro e he
      obtain ⟨hdirs, hfiles⟩ := post e he
      exact ⟨hdirs, fun f hf =>
        ⟨(hfiles f hf).2.2, ⟨"", (hfiles f hf).1⟩, (hfiles f hf).2.1⟩⟩
    obtain ⟨g, hg, hframe⟩ := run_replay spec fs' b hcond
    have hpost2 := run_ok_post spec g fs' b hg
    have hgeq : g = fs' := funext fun q => by
      rcases hframe q with heq | ⟨e, he, f, hf, hq⟩
      · exact heq
      · subst hq
        rw [((hpost2 e he).2 f hf).1, ((post e he).2 f hf).1]
    rw [hgeq] at hg
    exact hg
  · intro e he f hf c
    have htf : fs' (entryDir b e ++ pathSegs f) = some (Node.file "") :=
      ((post e he).2 f hf).1
    have hmono : ∀ q, fs' q = some Node.dir →
        FS.update fs' (entryDir b e ++ pathSegs f) (Node.file c) q = some Node.dir := by
      intro q hq
      have hqp : q ≠ entryDir b e ++ pathSegs f := by
        intro heq
        rw [heq, htf] at hq
        simp at hq
      rw [FS.update_ne fs' _ _ q hqp]
      exact hq
    have hcond : ∀ e' ∈ spec,
        (∀ k, 0 < k → k ≤ (entryDir b e').length →
          FS.update fs' (entryDir b e ++ pathSegs f) (Node.file c)
            ((entryDir b e').take k) = some Node.dir) ∧
        (∀ f' ∈ e'.2, entryDir b e' ++ pathSegs f' ≠ [] ∧
          hasFile (FS.update fs' (entryDir b e ++ pathSegs f) (Node.file c))
            (entryDir b e' ++ pathSegs f') ∧
          properParentsOk (FS.update fs' (entryDir b e ++ pathSegs f) (Node.file c))
            (entryDir b e' ++ pathSegs f') = true) := by
      intro e' he'
      obtain ⟨hdirs, hfiles⟩ := post e' he'
      constructor
      · intro k hk0 hk
        exact hmono _ (hdirs k hk0 hk)
      · intro f' hf'
        refine ⟨(hfiles f' hf').2.2, ?_,
          properParentsOk_mono fs' _ _ hmono (hfiles f' hf').2.1⟩
        by_cases hq : entryDir b e' ++ pathSegs f' = entryDir b e ++ pathSegs f
        · rw [hq]
          exact ⟨c, FS.update_self _ _ _⟩
        · exact ⟨"", by rw [FS.update_ne fs' _ _ _ hq]; exact (hfiles f' hf').1⟩
    obtain ⟨g, hg, hframe⟩ :=
      run_replay spec (FS.update fs' (entryDir b e ++ pathSegs f) (Node.file c)) b hcond
    have hpost2 := run_ok_post spec g _ b hg
    have hgeq : g = fs' := funext fun q => by
      by_cases hq : ∃ e' ∈ spec, ∃ f' ∈ e'.2, q = entryDir b e' ++ pathSegs f'
      · obtain ⟨e', he', f', hf', rfl⟩ := hq
        rw [((hpost2 e' he').2 f' hf').1, ((post e' he').2 f' hf').1]
      · rcases hframe q with heq | hmem
        · have hqt : q ≠ entryDir b e ++ pathSegs f := by
            intro heq2
            exact hq ⟨e, he, f, hf, heq2⟩
          rw [heq, FS.update_ne fs' _ _ q hqt]
        · exact absurd hmem hq
    rw [hgeq] at hg
    exact hg

theorem run_idempotent_witness :
    run fsResW base_dir specW = .ok fsResW ∧
    run (FS.update fsResW (entryDir base_dir ("hooks", ["useAuth.js"]) ++
      pathSegs "useAuth.js") (Node.file "data")) base_dir specW = .ok fsResW :=
  ⟨(run_idempotent fsEmpty fsResW base_dir specW rfl).1,
   (run_idempotent fsEmpty fsResW base_dir specW rfl).2 ("hooks", ["useAuth.js"])
     (by decide) "useAuth.js" (by decide) "data"⟩

/-- C4: on a state already holding the non-empty file src/hooks/useAuth.js,
the run of spec `[("hooks", ["useAuth.js"])]` with base "src" raises no
error, and afterwards the file exists with zero length: the prior content
is destroyed. -/
theorem run_truncates_preexisting_file :
    fs4 ["src", "hooks", "useAuth.js"] = some (Node.file "console.log(42);") ∧
    run fs4 base_dir [("hooks", ["useAuth.js"])] = .ok fs4out ∧
    fs4out ["src", "hooks", "useAuth.js"] = some (Node.file "") :=
  ⟨by decide, rfl, by decide⟩

/-- C5: directory creation is recursive: after a successful run, every
nonempty ancestor segment of each entry's directory path exists as a
directory, whether or not any of the segments existed before. -/
theorem run_creates_intermediate_dirs (fs fs' : FS) (b : String)
    (spec : List (String × List String)) (h : run fs b spec = .ok fs') :
    ∀ e ∈ spec, ∀ k, 0 < k → k ≤ (entryDir b e).length →
      fs' ((entryDir b e).take k) = some Node.dir := by
  intro e he
  exact ((run_ok_post spec fs' fs b h) e he).1

theorem run_creates_intermediate_dirs_witness :
    fsRes5 ((entryDir base_dir ("a/b/c", [])).take 2) = some Node.dir :=
  run_creates_intermediate_dirs fsEmpty fsRes5 base_dir spec5 rfl
    ("a/b/c", []) (by decide) 2 (by decide) (by decide)

/-- C6: the run is not transactional: a failing run decomposes into fully
processed leading entries, a failing entry at which the error state is
reached (the following entries are never touched), and the directories and
zero-length files of the completed entries all remain in place in the error
state. -/
theorem run_error_partial (g : FS) (b : String) (spec : List (String × List String))
    (hb : pathSegs b ≠ []) :
    ∀ fs : FS, run fs b spec = .error g →
    ∃ pre e post f1, spec = pre ++ e :: post ∧
      run fs b pre = .ok f1 ∧ runEntry f1 b e = .error g ∧
      run fs b (pre ++ [e]) = .error g ∧
      ∀ e2 ∈ pre, g (entryDir b e2) = some Node.dir ∧
        ∀ f ∈ e2.2, g (entryDir b e2 ++ pathSegs f) = some (Node.file "") := by
  induction spec with
  | nil =>
    intro fs h
    simp only [run] at h
    exact Except.noConfusion h
  | cons e0 rest ih =>
    intro fs h
    cases hr : runEntry fs b e0 with
    | error g0 =>
      simp only [run, hr] at h
      have hg : g0 = g := Except.error.inj h
      subst hg
      refine ⟨[], e0, rest, fs, rfl, rfl, hr, ?_, ?_⟩
      · simp only [List.nil_append, run, hr]
      · intro e2 he2
        simp at he2
    | ok g1 =>
      simp only [run, hr] at h
      obtain ⟨pre, e, post, f1, hspec, hpre, hent, hpree, hfacts⟩ := ih g1 h
      refine ⟨e0 :: pre, e, post, f1, by rw [List.cons_append, hspec], ?_, hent, ?_, ?_⟩
      · show run fs b (e0 :: pre) = .ok f1
        simp only [run, hr]
        exact hpre
      · show run fs b ((e0 :: pre) ++ [e]) = .error g
        rw [List.cons_append]
        simp only [run, hr]
        exact hpree
      · intro e2 he2
        rcases List.mem_cons.mp he2 with rfl | he2'
        · obtain ⟨hdirs, hfiles⟩ := runEntry_ok_post fs g1 b e2 hr
          have hlen : 0 < (entryDir b e2).length := by
            have hpos : 0 < (pathSegs b).length := List.length_pos.mpr hb
            simp only [entryDir, List.length_append]
            omega
          have hd1 : g1 (entryDir b e2) = some Node.dir := by
            have hd := hdirs (entryDir b e2).length hlen le_rfl
            rwa [List.take_length] at hd
          constructor
          · have hkeep := run_pres_dir (pre ++ [e]) g1 b _ hd1
            rw [hpree] at hkeep
            simpa [resState] using hkeep
          · intro f hfm
            have hkeep := run_pres_file0 (pre ++ [e]) g1 b _ (hfiles f hfm).1
            rw [hpree] at hkeep
            simpa [resState] using hkeep
        · exact hfacts e2 he2'

theorem run_error_partial_witness :
    ∃ pre e post f1, spec6 = pre ++ e :: post ∧
      run fs6 base_dir pre = .ok f1 ∧ runEntry f1 base_dir e = .error fs6err ∧
      run fs6 base_dir (pre ++ [e]) = .error fs6err ∧
      ∀ e2 ∈ pre, fs6err (entryDir base_dir e2) = some Node.dir ∧
        ∀ f ∈ e2.2, fs6err (entryDir base_dir e2 ++ pathSegs f) = some (Node.file "") :=
  run_error_partial fs6err base_dir spec6 (by decide) fs6 rfl

/-- C7: on a well-formed state in which an entry's full directory
join(baseDir, relativeDir) already exists as a directory, the
directory-creation step raises no error and leaves the state, in particular
that directory, unchanged. -/
theorem makedirs_existing_dir_silent (fs : FS) (b rel : String) (hwf : FS.wf fs)
    (hdir : fs (pathSegs b ++ pathSegs rel) = some Node.dir) :
    makedirs fs (pathSegs b ++ pathSegs rel) = .ok fs := by
  apply makedirs_self
  intro k hk0 hk
  rcases Nat.lt_or_ge k (pathSegs b ++ pathSegs rel).length with hlt | hge
  · exact hwf _ (by simp [hdir]) k hk0 hlt
  · have hk' : k = (pathSegs b ++ pathSegs rel).length := le_antisymm hk hge
    rw [hk', List.take_length]
    exact hdir

theorem makedirs_existing_dir_silent_witness :
    makedirs fsW7 (pathSegs base_dir ++ pathSegs "hooks") = .ok fsW7 :=
  makedirs_existing_dir_silent fsW7 base_dir "hooks" fsW7_wf (by decide)

/-- C8: the hardcoded table satisfies the data-model invariants: every key
is a forward-slash-separated relative directory path (possibly "." for the
project root), and every listed file name contains no path separator. -/
theorem scaffold_structure_wellformed :
    scaffold_structure.all (fun e => validRelDir e.1 && e.2.all validFileName) = true := by
  decide

/-- C9: frame property: a successful run leaves every path other than the
entries' directories (with their nonempty ancestors) and the entries' file
paths exactly as it was. -/
theorem run_frame (fs fs' : FS) (b : String) (spec : List (String × List String))
    (q : Path) (h : run fs b spec = .ok fs') (hq : touches b spec q = false) :
    fs' q = fs q := by
  have hcond := touches_false_elim b spec q hq
  have hframe := run_frame_aux spec fs b q (fun e he =>
    ⟨fun k hk0 hk => by
      obtain ⟨i, rfl⟩ : ∃ i, k = i + 1 := ⟨k - 1, by omega⟩
      exact (hcond e he).1 i (by omega),
     (hcond e he).2⟩)
  rw [h] at hframe
  simpa [resState] using hframe

theorem run_frame_witness : fsRes9 ["keep.txt"] = fs9 ["keep.txt"] :=
  run_frame fs9 fsRes9 base_dir specW ["keep.txt"] rfl (by decide)

/-- C10: ordering safety: the directory step of an entry runs before its
files are opened, so once makedirs has succeeded, every listed
single-segment file name has all its parent directories present when its
open runs, and a failure of the file phase can only be an existing
directory at a target path, never a missing parent. -/
theorem entry_open_never_misses_parent (fs fs1 : FS) (b : String)
    (e : String × List String) (hmk : makedirs fs (entryDir b e) = .ok fs1)
    (hsingle : ∀ f ∈ e.2, (pathSegs f).length = 1) :
    (∀ f ∈ e.2, properParentsOk fs1 (entryDir b e ++ pathSegs f) = true) ∧
    (∀ g, writeFiles fs1 (entryDir b e) e.2 = .error g →
      ∃ f ∈ e.2, FS.isDir g (entryDir b e ++ pathSegs f) = true) := by
  have hpar : ∀ f ∈ e.2, properParentsOk fs1 (entryDir b e ++ pathSegs f) = true := by
    intro f hf
    obtain ⟨s, hs⟩ := List.length_eq_one.mp (hsingle f hf)
    rw [hs]
    simp only [properParentsOk, List.all_eq_true, List.mem_range]
    intro i hi
    have hlen : (entryDir b e ++ [s]).length - 1 = (entryDir b e).length := by
      simp
    rw [hlen] at hi
    have htake : (entryDir b e ++ [s]).take (i + 1) = (entryDir b e).take (i + 1) :=
      take_append_le _ _ _ (by omega)
    rw [htake, FS.isDir_iff]
    exact makedirs_ok_post fs fs1 (entryDir b e) hmk (i + 1) (by omega) (by omega)
  refine ⟨hpar, fun g hgw => ?_⟩
  refine writeFiles_error_isdir e.2 fs1 g (entryDir b e) (fun f hf => ?_) hgw
  obtain ⟨s, hs⟩ := List.length_eq_one.mp (hsingle f hf)
  refine ⟨?_, hpar f hf⟩
  rw [hs]
  simp

theorem entry_open_never_misses_parent_witness :
    (∀ f ∈ (("hooks", ["useAuth.js"]) : String × List String).2,
      properParentsOk fs10 (entryDir base_dir ("hooks", ["useAuth.js"]) ++ pathSegs f) =
        true) ∧
    (∀ g, writeFiles fs10 (entryDir base_dir ("hooks", ["useAuth.js"]))
        (("hooks", ["useAuth.js"]) : String × List String).2 = .error g →
      ∃ f ∈ (("hooks", ["useAuth.js"]) : String × List String).2,
        FS.isDir g (entryDir base_dir ("hooks", ["useAuth.js"]) ++ pathSegs f) = true) :=
  entry_open_never_misses_parent fsEmpty fs10 base_dir ("hooks", ["useAuth.js"])
    rfl (by decide)

end Estructura
